import Mathlib

/-!
Shallow embedding of the focus-platform admin front-end logic that the
specification talks about, together with proofs of the specified properties.

Each definition is translated from one source location of the repository:

* `RolePermissions.*`   — the role-permission tree panel
  (`src/unnamed/part_007`): cascading menu selection (`toggleMenu`,
  `getDescendantMenuIds`, `getAncestorMenuIds`, `hasSelectedDescendants`)
  and the flat permission toggle (`togglePermission`).
* `SchedulerJobModal.*` — the scheduler-job form modal
  (`src/unnamed/part_004`): interval-seconds unit conversion on display
  (`setFormValuesWithConversion`) and on submit (`onConfirm`).
* `RequestInterceptor.*` — the shared request client
  (`src/web/apps/web-ele/src/api/request.ts`): the error-message response
  interceptor callback and `doReAuthenticate`.
* `MenuTreePanel.*` — the menu tree editor
  (`src/web/apps/web-ele/src/views/_core/menu/modules/menu-tree.vue`):
  `renderTreeList`, `toggleNodeExpanded`, `filteredTreeData`, and the
  menu-form path-field validation rules.
* `ApiClient.*` — the typed API wrappers (`src/unnamed/part_001`).
* `UserListColumns.*` — the user-list operation column (`src/unnamed/part_002`).

JavaScript `Set` state is modelled as `Finset String`; possibly-`undefined`
string values as `Option String`; JS truthiness of a string is `s ≠ ""`.
-/

namespace RolePermissions

/--
A node of the role-permission tree (`src/unnamed/part_007`): the backend
`menu_tree` mixes `MenuNode`s (which have `children`) with `PermissionNode`s
(recognised in the source by the presence of a `code` field).  Only the fields
the selection logic reads are modelled: the `id` and, for menus, the children.
-/
inductive RNode where
  | menu (id : String) (children : List RNode)
  | perm (id : String)

/--
Inner helper `collectDescendants` of `getDescendantMenuIds`
(`src/unnamed/part_007` lines 215-224): pushes the id of every menu node of a
forest, in depth-first preorder, skipping permission nodes.  (The same
traversal is what `selectAllMenus` and `totalMenuCount` perform, so this also
enumerates all menu ids of a tree.)
-/
def collectDescendants : List RNode → List String
  | [] => []
  | RNode.menu i cs :: rest => i :: (collectDescendants cs ++ collectDescendants rest)
  | RNode.perm _ :: rest => collectDescendants rest

/--
Inner helper `findAndCollect` of `getDescendantMenuIds`
(`src/unnamed/part_007` lines 199-213): searches the forest for the menu with
the given id; on a match it collects that menu's descendants, otherwise it
keeps searching the children and the remaining siblings.
-/
def findAndCollect (menuId : String) : List RNode → List String
  | [] => []
  | RNode.menu i cs :: rest =>
      (if i = menuId then collectDescendants cs else findAndCollect menuId cs)
        ++ findAndCollect menuId rest
  | RNode.perm _ :: rest => findAndCollect menuId rest

/--
`getDescendantMenuIds` (`src/unnamed/part_007` lines 196-228): the ids of all
descendant menus of `menuId` in `treeData`.
-/
def getDescendantMenuIds (treeData : List RNode) (menuId : String) : List String :=
  findAndCollect menuId treeData

/--
One top-down search pass of `findParent` (`src/unnamed/part_007` lines
236-256) for a target id.  The result distinguishes the three outcomes of the
source function: `some (some p)` — target found as a child of menu `p`;
`some none` — target found at the root level (no `parentId` argument);
`none` — target not found.
-/
def findParentOnce (targetId : String) : List RNode → Option String → Option (Option String)
  | [], _ => none
  | RNode.menu i cs :: rest, parentId =>
      if i = targetId then some parentId
      else
        match findParentOnce targetId cs (some i) with
        | some r => some r
        | none => findParentOnce targetId rest parentId
  | RNode.perm _ :: rest, parentId => findParentOnce targetId rest parentId

/--
The parent id `findParent` pushes for a target (if any).  The source guards
the push (and the climb) with JS truthiness — `if (parentId) { ... }`
(`src/unnamed/part_007` line 243) — so a parent whose id is the empty string
is falsy and treated exactly like a missing (root-level) parent: nothing is
pushed and the climb stops there.
-/
def parentOf (treeData : List RNode) (targetId : String) : Option String :=
  match findParentOnce targetId treeData none with
  | some (some p) => if p != "" then some p else none
  | _ => none

/--
The chain of parent ids collected by the self-recursive calls
`findParent(treeData, parentId)` of the source: closest parent first, root
last; per the `if (parentId)` truthiness guard the chain stops below an
ancestor whose id is the empty string.  The source recursion terminates
because each step moves strictly up the tree; the embedding makes that
explicit with a fuel argument (one unit per step), which
`getAncestorMenuIds` instantiates with the total number of menu nodes — an
upper bound for the depth of any node.
-/
def ancestorChain (treeData : List RNode) : Nat → String → List String
  | 0, _ => []
  | fuel + 1, targetId =>
      match parentOf treeData targetId with
      | some p => p :: ancestorChain treeData fuel p
      | none => []

/-- Number of menu nodes of a forest (permission nodes do not count). -/
def forestSize : List RNode → Nat
  | [] => 0
  | RNode.menu _ cs :: rest => 1 + forestSize cs + forestSize rest
  | RNode.perm _ :: rest => forestSize rest

/--
`getAncestorMenuIds` (`src/unnamed/part_007` lines 233-260): all ancestor menu
ids of `menuId`, closest parent first.
-/
def getAncestorMenuIds (treeData : List RNode) (menuId : String) : List String :=
  ancestorChain treeData (forestSize treeData) menuId

/--
`hasSelectedDescendants` (`src/unnamed/part_007` lines 265-268): whether any
descendant menu of `menuId` is in the selection set.
-/
def hasSelectedDescendants (treeData : List RNode) (selectedMenuIds : Finset String)
    (menuId : String) : Bool :=
  (getDescendantMenuIds treeData menuId).any (fun id => id ∈ selectedMenuIds)

/--
The body of the ancestor `forEach` of `toggleMenu`'s deselect branch
(`src/unnamed/part_007` lines 282-287): an ancestor is deselected when it no
longer has any selected descendant.  The check reads the selection set as
already mutated by the preceding iterations, exactly like the source's
`forEach` over a live JS `Set`.
-/
def deselectAncestorStep (treeData : List RNode) (s : Finset String)
    (ancestorId : String) : Finset String :=
  if !hasSelectedDescendants treeData s ancestorId then s.erase ancestorId else s

/--
`toggleMenu` (`src/unnamed/part_007` lines 273-304), acting on the
`selectedMenuIds` set.  Deselecting removes the menu and its descendants and
then, walking the ancestor list from the closest parent upwards, removes each
ancestor that no longer has any selected descendant.  Selecting adds the
menu, its descendants and its ancestors.
-/
def toggleMenu (treeData : List RNode) (selectedMenuIds : Finset String)
    (menuId : String) : Finset String :=
  if menuId ∈ selectedMenuIds then
    let s1 := selectedMenuIds.erase menuId
    let s2 := (getDescendantMenuIds treeData menuId).foldl (fun s id => s.erase id) s1
    (getAncestorMenuIds treeData menuId).foldl (deselectAncestorStep treeData) s2
  else
    let s1 := insert menuId selectedMenuIds
    let s2 := (getDescendantMenuIds treeData menuId).foldl (fun s id => insert id s) s1
    (getAncestorMenuIds treeData menuId).foldl (fun s id => insert id s) s2

/--
`togglePermission` (`src/unnamed/part_007` lines 331-337): plain membership
toggle on the `selectedPermissions` set.
-/
def togglePermission (selectedPermissions : Finset String) (permissionId : String) :
    Finset String :=
  if permissionId ∈ selectedPermissions then selectedPermissions.erase permissionId
  else insert permissionId selectedPermissions

/--
The checkbox binding of the permission template (`src/unnamed/part_007` line
734): `:checked="selectedPermissions.has(permission.id)"`.
-/
def permissionCheckboxChecked (selectedPermissions : Finset String)
    (permissionId : String) : Bool :=
  permissionId ∈ selectedPermissions

/--
The closure invariant of the claim: every selected menu's ancestors are all
selected.
-/
def ClosedUnderAncestors (treeData : List RNode) (selectedMenuIds : Finset String) : Prop :=
  ∀ x ∈ selectedMenuIds, ∀ a ∈ getAncestorMenuIds treeData x, a ∈ selectedMenuIds

/--
Children of the (unique, under well-formedness) menu node with the given id,
first match in depth-first order — the semantic anchor used to state what
`getDescendantMenuIds` and `getAncestorMenuIds` compute.
-/
def findMenu (targetId : String) : List RNode → Option (List RNode)
  | [] => none
  | RNode.menu i cs :: rest =>
      if i = targetId then some cs
      else
        match findMenu targetId cs with
        | some r => some r
        | none => findMenu targetId rest
  | RNode.perm _ :: rest => findMenu targetId rest

/-- Whether a menu node with the given id sits at the top level of a forest. -/
def hasTopMenu (targetId : String) : List RNode → Bool
  | [] => false
  | RNode.menu i _ :: rest => i == targetId || hasTopMenu targetId rest
  | RNode.perm _ :: rest => hasTopMenu targetId rest

/--
`a` is a proper ancestor of `x` in the forest: the subtree rooted at the menu
node with id `a` contains a menu node with id `x`.
-/
def IsAncestor (treeData : List RNode) (a x : String) : Prop :=
  ∃ cs, findMenu a treeData = some cs ∧ x ∈ collectDescendants cs

end RolePermissions

namespace SchedulerJobModal

/--
The slice of the scheduler-job form values that the interval-unit conversion
of `src/unnamed/part_004` reads and writes.  `interval_seconds = 0` plays the
role of a missing / falsy `data.interval_seconds`; `interval_unit = none` is
an absent unit field.
-/
structure JobFormValues where
  trigger_type : String
  interval_seconds : Nat
  interval_unit : Option String

/--
`setFormValuesWithConversion` (`src/unnamed/part_004` lines 49-74): for an
interval job with a truthy `interval_seconds`, picks the largest unit (days,
hours, minutes, seconds) that divides the stored seconds and divides the value
down; otherwise only sets the default unit.
-/
def setFormValuesWithConversion (data : JobFormValues) : JobFormValues :=
  if data.trigger_type == "interval" && data.interval_seconds != 0 then
    let seconds := data.interval_seconds
    if seconds % 86400 == 0 then
      { data with interval_unit := some "days", interval_seconds := seconds / 86400 }
    else if seconds % 3600 == 0 then
      { data with interval_unit := some "hours", interval_seconds := seconds / 3600 }
    else if seconds % 60 == 0 then
      { data with interval_unit := some "minutes", interval_seconds := seconds / 60 }
    else
      { data with interval_unit := some "seconds", interval_seconds := seconds }
  else
    { data with interval_unit := some "seconds" }

/--
The reverse conversion of `onConfirm` (`src/unnamed/part_004` lines 84-98):
the `interval_seconds` value submitted to the backend, obtained by multiplying
the displayed value by the length of its unit (`data.interval_unit || 'seconds'`).
-/
def onConfirmIntervalSeconds (data : JobFormValues) : Nat :=
  if data.trigger_type == "interval" && data.interval_seconds != 0 then
    let unit := match data.interval_unit with
      | some u => if u != "" then u else "seconds"
      | none => "seconds"
    let value := data.interval_seconds
    if unit == "minutes" then value * 60
    else if unit == "hours" then value * 3600
    else if unit == "days" then value * 86400
    else value
  else data.interval_seconds

/-- Length in seconds of a display unit (specification-side helper). -/
def unitSeconds (u : String) : Nat :=
  if u == "minutes" then 60
  else if u == "hours" then 3600
  else if u == "days" then 86400
  else 1

/--
The unit the claim says is displayed for a stored seconds value: days if
86400 divides it, else hours if 3600 divides it, else minutes if 60 divides
it, else seconds.
-/
def claimedUnit (s : Nat) : String :=
  if 86400 ∣ s then "days"
  else if 3600 ∣ s then "hours"
  else if 60 ∣ s then "minutes"
  else "seconds"

end SchedulerJobModal

namespace RequestInterceptor

/--
The backend error payload fields the interceptor callback of
`src/web/apps/web-ele/src/api/request.ts` (lines 126-165) reads.  `none`
models an absent (`undefined`) field.
-/
structure ResponseData where
  message : Option String
  error : Option String
  detail : Option String
  msg : Option String

/-- JS truthiness of a possibly-undefined string value. -/
def truthy : Option String → Bool
  | none => false
  | some s => s != ""

/-- JS `a || b` for a possibly-undefined string `a` and a string `b`. -/
def jsOr (a : Option String) (b : String) : String :=
  match a with
  | some s => if s != "" then s else b
  | none => b

/--
The `errorMessage` computed by the interceptor callback
(`src/web/apps/web-ele/src/api/request.ts` lines 131-153): the `||` chain over
the payload fields and the interceptor-supplied `msg`, then the status-code
default for 429, 403 and 401 when the chain produced an empty message.
-/
def errorMessageOf (msg : String) (status : Option Nat) (rd : ResponseData) : String :=
  let em := jsOr rd.message (jsOr rd.error (jsOr rd.detail (jsOr rd.msg msg)))
  let em := if status == some 429 then
      (if em != "" then em else "请求过于频繁，请稍后再试（5分钟内不能重试）") else em
  let em := if status == some 403 then
      (if em != "" then em else "您没有权限访问此资源") else em
  let em := if status == some 401 then
      (if em != "" then em else "认证失败，请重新登录") else em
  em

/-- The observable effects the interceptor callback can produce. -/
inductive InterceptorEffect where
  | showToast (message : String)
  | retryRequest
deriving DecidableEq

/--
The effects of one run of the interceptor callback (lines 155-164): it only
logs and, when the resulting message is non-empty, shows one error toast; it
never re-issues the request.
-/
def callbackEffects (msg : String) (status : Option Nat) (rd : ResponseData) :
    List InterceptorEffect :=
  if errorMessageOf msg status rd != "" then
    [InterceptorEffect.showToast (errorMessageOf msg status rd)]
  else []

/-- First non-empty string of a list (specification-side helper). -/
def firstNonEmpty : List String → Option String
  | [] => none
  | s :: rest => if s != "" then some s else firstNonEmpty rest

/-- The status-specific default messages named by the claim. -/
def statusDefault : Option Nat → Option String
  | some 429 => some "请求过于频繁，请稍后再试（5分钟内不能重试）"
  | some 403 => some "您没有权限访问此资源"
  | some 401 => some "认证失败，请重新登录"
  | _ => none

/--
The displayed message as the claim words it: the first non-empty value among
`responseData.message`, `.error`, `.detail`, `.msg` and the supplied `msg`;
only when all of those are empty does the status-specific default apply (and
with no default the toast is suppressed).
-/
def displayedMessageSpec (msg : String) (status : Option Nat) (rd : ResponseData) :
    Option String :=
  match firstNonEmpty [rd.message.getD "", rd.error.getD "", rd.detail.getD "",
      rd.msg.getD "", msg] with
  | some s => some s
  | none => statusDefault status

/--
Modelled from the spec: the `authenticateResponseInterceptor` registered in
`request.ts` (lines 113-122) comes from the vben request package, whose source
is not included under `src/`; per the spec's error-handling section, a 401
response triggers re-authentication.
-/
def triggersReAuthentication (status : Option Nat) : Bool :=
  status == some 401

/--
The access-store state `doReAuthenticate`
(`src/web/apps/web-ele/src/api/request.ts` lines 33-56) reads and writes.
-/
structure AccessState where
  accessToken : Option String
  refreshToken : Option String
  isAccessChecked : Bool
  loginExpired : Bool

/-- What `doReAuthenticate` does besides mutating the access store. -/
inductive ReAuthAction where
  | noAction
  | markLoginExpired
  | logout
deriving DecidableEq

/-- JS `Boolean(token)` for a `null | string` token. -/
def tokenHeld : Option String → Bool
  | none => false
  | some s => s != ""

/--
`doReAuthenticate` (`request.ts` lines 33-56): records whether a token was
held, always nulls the access token, returns early when no token was held,
and otherwise either marks the login expired (modal mode with access checked)
or logs out.
-/
def doReAuthenticate (loginExpiredMode : String) (st : AccessState) :
    AccessState × ReAuthAction :=
  let hadToken := tokenHeld st.accessToken || tokenHeld st.refreshToken
  let st1 : AccessState := { st with accessToken := none }
  if !hadToken then (st1, ReAuthAction.noAction)
  else if loginExpiredMode == "modal" && st.isAccessChecked then
    ({ st1 with loginExpired := true }, ReAuthAction.markLoginExpired)
  else (st1, ReAuthAction.logout)

end RequestInterceptor

namespace MenuTreePanel

/--
A node of the menu editor tree
(`src/web/apps/web-ele/src/views/_core/menu/modules/menu-tree.vue`): only the
`id` and `children` fields are read by the expand/collapse flattening; an
absent `children` array is modelled as `[]`.
-/
inductive MTNode where
  | node (id : String) (children : List MTNode)

/-- The `id` field of a node. -/
def MTNode.id : MTNode → String
  | MTNode.node i _ => i

/-- The `children` field of a node. -/
def MTNode.children : MTNode → List MTNode
  | MTNode.node _ cs => cs

/--
`toggleNodeExpanded` (`menu-tree.vue` lines 153-159): membership toggle of the
node's id in `expandedMenuIds`.
-/
def toggleNodeExpanded (expandedMenuIds : Finset String) (menu : MTNode) : Finset String :=
  if menu.id ∈ expandedMenuIds then expandedMenuIds.erase menu.id
  else insert menu.id expandedMenuIds

/--
`renderTreeList` (`menu-tree.vue` lines 329-338): flattens the visible part of
the tree, pairing each node with its level; a node's children are included
right after it exactly when its id is expanded and its children list is
non-empty.
-/
def renderTreeList (expanded : List String) : List MTNode → Nat → List (MTNode × Nat)
  | [], _ => []
  | MTNode.node i cs :: rest, level =>
      (MTNode.node i cs, level) ::
        ((if expanded.contains i && !cs.isEmpty then renderTreeList expanded cs (level + 1)
          else [])
          ++ renderTreeList expanded rest level)

/--
Depth-first preorder flattening of a forest (specification-side helper),
pairing each node with its level and the ids of its proper ancestors
(closest first); `ancs` are the ancestors of the forest's roots.
-/
def preorderWithAnc (ancs : List String) (level : Nat) :
    List MTNode → List (MTNode × Nat × List String)
  | [] => []
  | MTNode.node i cs :: rest =>
      (MTNode.node i cs, level, ancs) ::
        (preorderWithAnc (i :: ancs) (level + 1) cs ++ preorderWithAnc ancs level rest)

/--
The flattened list the claim describes: the depth-first preorder sequence of
exactly those nodes all of whose proper ancestors are expanded, each paired
with its depth (roots at level 0).
-/
def visibleSpec (expanded : List String) (forest : List MTNode) : List (MTNode × Nat) :=
  (preorderWithAnc [] 0 forest).filterMap
    (fun e => if e.2.2.all (fun a => expanded.contains a) then some (e.1, e.2.1) else none)

/--
`filteredTreeData` (`menu-tree.vue` lines 319-324): the displayed tree is the
search results when the keyword is non-blank and the results are non-empty,
the full loaded tree otherwise.
-/
def filteredTreeData (searchKeyword : String) (searchResults treeData : List MTNode) :
    List MTNode :=
  if searchKeyword.trim != "" && searchResults.length > 0 then searchResults
  else treeData

/--
The path-field rules of the menu form schema (`menu-tree.vue` lines 750-767):
`z.string().min(2).max(100)` refined by a leading-slash check and by the
backend path-existence check (a refinement only runs when the schema before it
accepted, and `z.refine` accepts when its predicate is true — here "the path
does not yet exist").  `pathExists` abstracts the backend answer of
`isMenuPathExists`.
-/
def pathRulesAccept (pathExists : String → Bool) (value : String) : Bool :=
  if decide (2 ≤ value.length) && decide (value.length ≤ 100) then
    if value.startsWith "/" then !(pathExists value)
    else false
  else false

end MenuTreePanel

namespace ApiClient

/-- HTTP methods the typed client wrappers use. -/
inductive HttpMethod where
  | get
  | post
  | put
  | delete
deriving DecidableEq

/--
One HTTP request as issued by a typed wrapper: method, url, query parameters
(`params` of the axios config) and JSON body.  `Q` and `B` are the wrapper's
query and body types.  A wrapper function *is* the one request it issues; its
typed response is returned to the caller without transformation.
-/
structure RequestSpec (Q B : Type) where
  method : HttpMethod
  url : String
  query : Option Q
  body : Option B

/-- `UserListParams` (`src/unnamed/part_001` lines 94-103). -/
structure UserListParams where
  page : Option Nat
  pageSize : Option Nat
  name : Option String
  username : Option String
  user_status : Option Nat
  user_type : Option Nat
  dept_ids : Option (List String)
  mobile : Option String
  email : Option String

/--
`MenuUpdateInput` (`src/unnamed/part_001` line 327): a partial
`MenuCreateInput`.  Only the shape matters for the pass-through claim; the
fields are the creation fields, each optional.
-/
structure MenuUpdateInput where
  name : Option String
  title : Option String
  type : Option String
  path : Option String
  parent_id : Option String
  order : Option Nat
  icon : Option String

/--
`getUserListApi` (`src/unnamed/part_001` lines 129-133):
`requestClient.get('/api/core/user', { params })`.
-/
def getUserListApi (params : Option UserListParams) : RequestSpec UserListParams Unit :=
  { method := HttpMethod.get
    url := "/api/core/user"
    query := params
    body := none }

/--
`updateMenuApi` (`src/unnamed/part_001` lines 400-402):
`requestClient.put('/api/core/menu/' + menuId, data)` (template literal).
-/
def updateMenuApi (menuId : String) (data : MenuUpdateInput) :
    RequestSpec Unit MenuUpdateInput :=
  { method := HttpMethod.put
    url := "/api/core/menu/" ++ menuId
    query := none
    body := some data }

end ApiClient

namespace UserListColumns

/-- The fields of a `User` row the operation column reads (`src/unnamed/part_001`). -/
structure UserRow where
  id : String
  username : String
  is_active : Nat

/--
The `disabled` predicate of the delete option of the user list's operation
column (`src/unnamed/part_002` lines 373-378): the built-in administrator
account must not be deleted.
-/
def deleteActionDisabled (row : UserRow) : Bool :=
  row.id == "a0000000-0000-0000-0000-000000000001"

end UserListColumns

/-! ## Theorems -/

namespace SchedulerJobModal

theorem unitSeconds_days : unitSeconds "days" = 86400 := rfl

theorem unitSeconds_hours : unitSeconds "hours" = 3600 := rfl

theorem unitSeconds_minutes : unitSeconds "minutes" = 60 := rfl

theorem unitSeconds_seconds : unitSeconds "seconds" = 1 := rfl

/--
**C2.** Interval-trigger unit conversion round trip: for every positive
`interval_seconds` of an interval job, the display conversion picks days /
hours / minutes / seconds by divisibility (largest unit first), shows the
value divided by the unit length, and the submit conversion of `onConfirm`
multiplies back to exactly the stored seconds.
-/
theorem interval_unit_roundtrip (s : Nat) (hs : 0 < s) :
    (setFormValuesWithConversion ⟨"interval", s, none⟩).interval_unit
        = some (claimedUnit s)
    ∧ (setFormValuesWithConversion ⟨"interval", s, none⟩).interval_seconds
        = s / unitSeconds (claimedUnit s)
    ∧ onConfirmIntervalSeconds (setFormValuesWithConversion ⟨"interval", s, none⟩) = s := by
  have hs0 : (s != 0) = true := by simp [bne_iff_ne]; omega
  by_cases h1 : s % 86400 = 0
  · have hdvd : 86400 ∣ s := by omega
    have hposdiv : 0 < s / 86400 := Nat.div_pos (Nat.le_of_dvd hs hdvd) (by norm_num)
    refine ⟨?_, ?_, ?_⟩ <;>
      simp [setFormValuesWithConversion, onConfirmIntervalSeconds, claimedUnit,
        unitSeconds, hs0, h1, hdvd, Nat.pos_iff_ne_zero.mp hposdiv,
        Nat.div_mul_cancel hdvd]
  · have hnd1 : ¬(86400 ∣ s) := by omega
    by_cases h2 : s % 3600 = 0
    · have hdvd : 3600 ∣ s := by omega
      have hposdiv : 0 < s / 3600 := Nat.div_pos (Nat.le_of_dvd hs hdvd) (by norm_num)
      refine ⟨?_, ?_, ?_⟩ <;>
        simp [setFormValuesWithConversion, onConfirmIntervalSeconds, claimedUnit,
          unitSeconds, hs0, h1, h2, hnd1, hdvd, Nat.pos_iff_ne_zero.mp hposdiv,
          Nat.div_mul_cancel hdvd]
    · have hnd2 : ¬(3600 ∣ s) := by omega
      by_cases h3 : s % 60 = 0
      · have hdvd : 60 ∣ s := by omega
        have hposdiv : 0 < s / 60 := Nat.div_pos (Nat.le_of_dvd hs hdvd) (by norm_num)
        refine ⟨?_, ?_, ?_⟩ <;>
          simp [setFormValuesWithConversion, onConfirmIntervalSeconds, claimedUnit,
            unitSeconds, hs0, h1, h2, h3, hnd1, hnd2, hdvd,
            Nat.pos_iff_ne_zero.mp hposdiv, Nat.div_mul_cancel hdvd]
      · have hnd3 : ¬(60 ∣ s) := by omega
        refine ⟨?_, ?_, ?_⟩ <;>
          simp [setFormValuesWithConversion, onConfirmIntervalSeconds, claimedUnit,
            unitSeconds, hs0, h1, h2, h3, hnd1, hnd2, hnd3, Nat.pos_iff_ne_zero.mp hs]

/-- Witness for C2 at the concrete stored value 7200 (two hours). -/
theorem interval_unit_roundtrip_witness :
    0 < 7200
    ∧ ((setFormValuesWithConversion ⟨"interval", 7200, none⟩).interval_unit
          = some (claimedUnit 7200)
        ∧ (setFormValuesWithConversion ⟨"interval", 7200, none⟩).interval_seconds
          = 7200 / unitSeconds (claimedUnit 7200)
        ∧ onConfirmIntervalSeconds (setFormValuesWithConversion ⟨"interval", 7200, none⟩)
          = 7200) :=
  ⟨by norm_num, interval_unit_roundtrip 7200 (by norm_num)⟩

end SchedulerJobModal

namespace RequestInterceptor

theorem jsOr_eq_getD (a : Option String) (b : String) :
    jsOr a b = (if a.getD "" != "" then a.getD "" else b) := by
  cases a <;> simp [jsOr]

theorem firstNonEmpty_ne_empty :
    ∀ (l : List String) (s : String), firstNonEmpty l = some s → s ≠ "" := by
  intro l
  induction l with
  | nil => intro s h; simp [firstNonEmpty] at h
  | cons x rest ih =>
      intro s h
      by_cases hx : x = ""
      · simp [firstNonEmpty, hx] at h
        exact ih s h
      · simp [firstNonEmpty, hx] at h
        simpa [← h] using hx

theorem jsOr_chain_eq (rd : ResponseData) (msg : String) :
    jsOr rd.message (jsOr rd.error (jsOr rd.detail (jsOr rd.msg msg))) =
      (firstNonEmpty [rd.message.getD "", rd.error.getD "", rd.detail.getD "",
        rd.msg.getD "", msg]).getD "" := by
  rw [jsOr_eq_getD, jsOr_eq_getD, jsOr_eq_getD, jsOr_eq_getD]
  simp only [firstNonEmpty]
  by_cases h1 : rd.message.getD "" = "" <;>
    by_cases h2 : rd.error.getD "" = "" <;>
      by_cases h3 : rd.detail.getD "" = "" <;>
        by_cases h4 : rd.msg.getD "" = "" <;>
          by_cases h5 : msg = "" <;>
            simp [h1, h2, h3, h4, h5, bne_iff_ne]

theorem errorMessageOf_eq_spec (msg : String) (status : Option Nat) (rd : ResponseData) :
    errorMessageOf msg status rd = (displayedMessageSpec msg status rd).getD "" := by
  unfold errorMessageOf
  rw [jsOr_chain_eq]
  unfold displayedMessageSpec
  rcases hf : firstNonEmpty [rd.message.getD "", rd.error.getD "", rd.detail.getD "",
      rd.msg.getD "", msg] with _ | s
  · rcases status with _ | n
    · simp [statusDefault, beq_iff_eq]
    · by_cases h429 : n = 429
      · simp [statusDefault, beq_iff_eq, h429]
      · by_cases h403 : n = 403
        · simp [statusDefault, beq_iff_eq, h429, h403]
        · by_cases h401 : n = 401
          · simp [statusDefault, beq_iff_eq, h429, h403, h401]
          · simp [statusDefault, beq_iff_eq, h429, h403, h401]
  · have hs : s ≠ "" := firstNonEmpty_ne_empty _ s hf
    simp [bne_iff_ne, hs]

end RequestInterceptor

namespace RequestInterceptor

theorem statusDefault_ne_some_empty (status : Option Nat) : statusDefault status ≠ some "" := by
  rcases status with _ | n
  · simp [statusDefault]
  · by_cases h429 : n = 429
    · simp [statusDefault, h429]
    · by_cases h403 : n = 403
      · simp [statusDefault, h429, h403]
      · by_cases h401 : n = 401 <;> simp [statusDefault, h429, h403, h401]

/--
**C3.** The response interceptor callback shows exactly the message the claim
describes: the first non-empty value among `responseData.message`, `.error`,
`.detail`, `.msg` and the interceptor-supplied `msg`; only when all of those
are empty does the status-specific default (for 429, 403 or 401) apply.  It
never retries the request, shows no toast when the resulting message is
empty, and a 401 status is the one that triggers re-authentication.
-/
theorem error_interceptor_spec (msg : String) (status : Option Nat) (rd : ResponseData) :
    (callbackEffects msg status rd =
        match displayedMessageSpec msg status rd with
        | some m => [InterceptorEffect.showToast m]
        | none => [])
    ∧ InterceptorEffect.retryRequest ∉ callbackEffects msg status rd
    ∧ displayedMessageSpec msg status rd ≠ some ""
    ∧ (triggersReAuthentication status = true ↔ status = some 401) := by
  have hspec : displayedMessageSpec msg status rd ≠ some "" := by
    unfold displayedMessageSpec
    rcases hf : firstNonEmpty [rd.message.getD "", rd.error.getD "", rd.detail.getD "",
        rd.msg.getD "", msg] with _ | s
    · exact statusDefault_ne_some_empty status
    · simpa using firstNonEmpty_ne_empty _ s hf
  have heff : callbackEffects msg status rd =
      match displayedMessageSpec msg status rd with
      | some m => [InterceptorEffect.showToast m]
      | none => [] := by
    unfold callbackEffects
    rw [errorMessageOf_eq_spec]
    rcases hd : displayedMessageSpec msg status rd with _ | m
    · simp
    · have hm : m ≠ "" := by
        intro hme
        exact hspec (by rw [hd, hme])
      simp [bne_iff_ne, hm]
  refine ⟨heff, ?_, hspec, ?_⟩
  · rw [heff]
    rcases displayedMessageSpec msg status rd with _ | m <;> simp
  · simp [triggersReAuthentication, beq_iff_eq]

/--
**C9.** `doReAuthenticate` always nulls the stored access token; when neither
token was held it performs no logout and does not touch the login-expired
flag; when some token was held it marks the login expired exactly in modal
mode with access checked, and logs out otherwise.
-/
theorem doReAuthenticate_spec (mode : String) (st : AccessState) :
    ((doReAuthenticate mode st).1.accessToken = none)
    ∧ ((doReAuthenticate mode st).2 = ReAuthAction.noAction ↔
        tokenHeld st.accessToken = false ∧ tokenHeld st.refreshToken = false)
    ∧ ((doReAuthenticate mode st).2 = ReAuthAction.markLoginExpired ↔
        (tokenHeld st.accessToken = true ∨ tokenHeld st.refreshToken = true)
          ∧ mode = "modal" ∧ st.isAccessChecked = true)
    ∧ ((doReAuthenticate mode st).2 = ReAuthAction.logout ↔
        (tokenHeld st.accessToken = true ∨ tokenHeld st.refreshToken = true)
          ∧ ¬(mode = "modal" ∧ st.isAccessChecked = true))
    ∧ ((doReAuthenticate mode st).1.loginExpired = true ↔
        st.loginExpired = true ∨
          ((tokenHeld st.accessToken = true ∨ tokenHeld st.refreshToken = true)
            ∧ mode = "modal" ∧ st.isAccessChecked = true)) := by
  cases h1 : tokenHeld st.accessToken <;>
    cases h2 : tokenHeld st.refreshToken <;>
      by_cases h3 : mode = "modal" <;>
        cases h4 : st.isAccessChecked <;>
          simp [doReAuthenticate, h1, h2, h3, h4, beq_iff_eq]

end RequestInterceptor

namespace RolePermissions

/--
**C5.** The checkbox reflects the selection set: a permission's checkbox is
rendered checked exactly when its id is in `selectedPermissions`;
`togglePermission p` negates `p`'s membership, leaves every other id's
membership unchanged, and applied twice restores the original set.
-/
theorem togglePermission_spec (selectedPermissions : Finset String) (p : String) :
    (permissionCheckboxChecked selectedPermissions p = true ↔ p ∈ selectedPermissions)
    ∧ (∀ q, q ∈ togglePermission selectedPermissions p ↔
        (if q = p then p ∉ selectedPermissions else q ∈ selectedPermissions))
    ∧ togglePermission (togglePermission selectedPermissions p) p = selectedPermissions := by
  refine ⟨by simp [permissionCheckboxChecked], ?_, ?_⟩
  · intro q
    by_cases hp : p ∈ selectedPermissions <;>
      by_cases hq : q = p <;>
        simp [togglePermission, hp, hq, Finset.mem_erase, Finset.mem_insert]
  · by_cases hp : p ∈ selectedPermissions
    · have h1 : togglePermission selectedPermissions p = selectedPermissions.erase p := by
        simp [togglePermission, hp]
      rw [h1]
      have h2 : p ∉ selectedPermissions.erase p := Finset.not_mem_erase p _
      simp [togglePermission, h2, Finset.insert_erase hp]
    · have h1 : togglePermission selectedPermissions p = insert p selectedPermissions := by
        simp [togglePermission, hp]
      rw [h1]
      have h2 : p ∈ insert p selectedPermissions := Finset.mem_insert_self p _
      simp [togglePermission, h2, Finset.erase_insert hp]

end RolePermissions

namespace ApiClient

/--
**C6.** Each REST endpoint is bound 1:1 to a typed client function that
forwards its arguments unchanged: `getUserListApi` issues exactly one GET to
`/api/core/user` with its params object as query parameters and no body, and
`updateMenuApi` issues exactly one PUT to `/api/core/menu/{menuId}` with its
update-input object as the body and no query parameters.
-/
theorem api_bindings_spec (params : Option UserListParams) (menuId : String)
    (data : MenuUpdateInput) :
    getUserListApi params =
      { method := HttpMethod.get, url := "/api/core/user", query := params, body := none }
    ∧ updateMenuApi menuId data =
      { method := HttpMethod.put, url := "/api/core/menu/" ++ menuId, query := none,
        body := some data } :=
  ⟨rfl, rfl⟩

end ApiClient

namespace MenuTreePanel

/--
**C7.** The menu-form path-field rules accept a string exactly when its
length is between 2 and 100, it starts with a slash, and the backend
path-existence check answers false; any string violating the length bounds or
the leading slash is rejected regardless of the backend answer.
-/
theorem pathRules_spec (pathExists : String → Bool) (value : String) :
    pathRulesAccept pathExists value = true ↔
      (2 ≤ value.length ∧ value.length ≤ 100 ∧ value.startsWith "/" = true
        ∧ pathExists value = false) := by
  unfold pathRulesAccept
  split_ifs with h1 h2 <;> simp_all

/--
**C8.** Menu search fallback: the displayed tree equals the full loaded tree
whenever the trimmed search keyword is empty or the search results are empty;
only a non-blank keyword with non-empty results replaces the display, so the
display of a non-empty tree is never empty.
-/
theorem filteredTreeData_spec (searchKeyword : String) (searchResults treeData : List MTNode) :
    filteredTreeData searchKeyword searchResults treeData =
      (if searchKeyword.trim = "" ∨ searchResults.length = 0 then treeData else searchResults)
    ∧ (treeData ≠ [] → filteredTreeData searchKeyword searchResults treeData ≠ []) := by
  have hmain : filteredTreeData searchKeyword searchResults treeData =
      (if searchKeyword.trim = "" ∨ searchResults.length = 0 then treeData else searchResults) := by
    unfold filteredTreeData
    by_cases h1 : searchKeyword.trim = "" <;>
      by_cases h2 : searchResults.length = 0 <;>
        simp [h1, h2, bne_iff_ne, Nat.pos_iff_ne_zero]
  refine ⟨hmain, ?_⟩
  intro ht
  rw [hmain]
  by_cases h1 : searchKeyword.trim = "" <;>
    by_cases h2 : searchResults.length = 0 <;>
      simp [h1, h2, ht, ← List.length_eq_zero]

/-- Witness for C8 at a concrete non-empty tree and a blank keyword. -/
theorem filteredTreeData_spec_witness :
    ([MTNode.node "m1" []] : List MTNode) ≠ []
    ∧ filteredTreeData "   " [] [MTNode.node "m1" []] ≠ [] :=
  ⟨by simp, (filteredTreeData_spec "   " [] [MTNode.node "m1" []]).2 (by simp)⟩

end MenuTreePanel

namespace UserListColumns

/--
**C10.** The delete action of the user list's operation column is disabled
exactly for the built-in administrator row
`a0000000-0000-0000-0000-000000000001`, and enabled for every other user.
-/
theorem deleteActionDisabled_spec (row : UserRow) :
    deleteActionDisabled row = true ↔ row.id = "a0000000-0000-0000-0000-000000000001" := by
  simp [deleteActionDisabled]

end UserListColumns

namespace MenuTreePanel

theorem mtForest_induction (motive : List MTNode → Prop) (h0 : motive [])
    (h1 : ∀ i cs rest, motive cs → motive rest → motive (MTNode.node i cs :: rest)) :
    ∀ f, motive f
  | [] => h0
  | MTNode.node i cs :: rest =>
      h1 i cs rest (mtForest_induction motive h0 h1 cs) (mtForest_induction motive h0 h1 rest)

theorem mem_preorderWithAnc_anc (a : String) :
    ∀ f ancs level e, e ∈ preorderWithAnc ancs level f → a ∈ ancs → a ∈ e.2.2 := by
  intro f
  induction f using mtForest_induction with
  | h0 => intro ancs level e he; simp [preorderWithAnc] at he
  | h1 i cs rest ihcs ihrest =>
      intro ancs level e he ha
      simp only [preorderWithAnc, List.mem_cons, List.mem_append] at he
      rcases he with he | he | he
      · subst he; exact ha
      · exact ihcs _ _ _ he (List.mem_cons_of_mem _ ha)
      · exact ihrest _ _ _ he ha

theorem filterMap_preorder_unexpanded (expanded : List String) (i : String)
    (hie : i ∉ expanded) (cs : List MTNode) (ancs : List String) (level : Nat)
    (hia : i ∈ ancs) :
    (preorderWithAnc ancs level cs).filterMap
      (fun e => if e.2.2.all (fun a => expanded.contains a) then some (e.1, e.2.1)
        else none) = [] := by
  rw [List.filterMap_eq_nil_iff]
  intro e he
  have hie2 : i ∈ e.2.2 := mem_preorderWithAnc_anc i cs ancs level e he hia
  cases hb : (e.2.2.all fun a => expanded.contains a) with
  | false => simp [hb]
  | true =>
      exfalso
      exact hie (by simpa using List.all_eq_true.mp hb i hie2)

theorem renderTreeList_eq_filtered (expanded : List String) :
    ∀ f ancs level, (∀ a ∈ ancs, a ∈ expanded) →
      renderTreeList expanded f level =
        (preorderWithAnc ancs level f).filterMap
          (fun e => if e.2.2.all (fun a => expanded.contains a) then some (e.1, e.2.1)
            else none) := by
  intro f
  induction f using mtForest_induction with
  | h0 => intro ancs level _; simp [renderTreeList, preorderWithAnc]
  | h1 i cs rest ihcs ihrest =>
      intro ancs level hancs
      have hall : (ancs.all fun a => expanded.contains a) = true := by
        simp only [List.all_eq_true]
        intro a ha
        simpa using hancs a ha
      by_cases hi : i ∈ expanded
      · have hic : expanded.contains i = true := by simpa using hi
        by_cases hcs : cs.isEmpty = true
        · have hcs2 : cs = [] := by simpa [List.isEmpty_iff] using hcs
          subst hcs2
          simp only [renderTreeList, preorderWithAnc, List.filterMap_cons,
            List.filterMap_append, hall, if_true, hic, Bool.true_and, List.isEmpty_nil,
            Bool.not_true, if_false, List.filterMap_nil, List.nil_append]
          rw [ihrest ancs level hancs]
          simp
        · have hcs2 : cs.isEmpty = false := by simpa using hcs
          have hancs2 : ∀ a ∈ i :: ancs, a ∈ expanded := by
            intro a ha
            rcases List.mem_cons.mp ha with rfl | ha
            · exact hi
            · exact hancs a ha
          simp only [renderTreeList, preorderWithAnc, List.filterMap_cons,
            List.filterMap_append, hall, if_true, hic, hcs2, Bool.true_and,
            Bool.not_false, if_true]
          rw [ihcs (i :: ancs) (level + 1) hancs2, ihrest ancs level hancs]
      · have hic : expanded.contains i = false := by simpa using hi
        simp only [renderTreeList, preorderWithAnc, List.filterMap_cons,
          List.filterMap_append, hall, if_true, hic, Bool.false_and, if_false]
        rw [filterMap_preorder_unexpanded expanded i hi cs (i :: ancs) (level + 1)
          (List.mem_cons_self i ancs)]
        simp only [List.nil_append]
        rw [ihrest ancs level hancs]
        simp

/--
**C4.** Menu-tree expand/collapse flattening: `renderTreeList` returns the
depth-first preorder list of exactly those nodes all of whose proper
ancestors are expanded, pairing each node with its depth (roots at level 0);
and a node's children follow it in the flattened list exactly when its id is
expanded and its children list is non-empty.
-/
theorem renderTreeList_spec (expanded : List String) :
    (∀ forest, renderTreeList expanded forest 0 = visibleSpec expanded forest)
    ∧ (∀ i cs rest level,
        renderTreeList expanded (MTNode.node i cs :: rest) level =
          (MTNode.node i cs, level) ::
            (if expanded.contains i = true ∧ cs.length ≠ 0 then
              renderTreeList expanded cs (level + 1) ++ renderTreeList expanded rest level
            else renderTreeList expanded rest level)) := by
  constructor
  · intro forest
    exact renderTreeList_eq_filtered expanded forest [] 0 (by simp)
  · intro i cs rest level
    by_cases hi : expanded.contains i = true
    · by_cases hcs : cs.length = 0
      · have hcs' : cs = [] := by simpa [List.length_eq_zero] using hcs
        subst hcs'
        simp [renderTreeList, hi]
      · have hcs2 : cs.isEmpty = false := by
          rcases cs with _ | _
          · simp at hcs
          · simp
        have him : i ∈ expanded := by simpa using hi
        simp [renderTreeList, hi, hcs, hcs2, him]
    · have hi2 : expanded.contains i = false := by simpa using hi
      simp only [renderTreeList, hi2, Bool.false_and, if_false, List.nil_append]
      rw [if_neg]
      · simp
      · simp [hi2]

end MenuTreePanel

namespace RolePermissions

theorem findMenu_eq_none_iff :
    ∀ (f : List RNode) (x : String), findMenu x f = none ↔ x ∉ collectDescendants f := by
  intro f
  induction f using collectDescendants.induct with
  | case1 => intro x; simp [findMenu, collectDescendants]
  | case2 i cs rest ihcs ihrest =>
      intro x
      by_cases hix : i = x
      · subst hix
        simp [findMenu, collectDescendants]
      · rcases hc : findMenu x cs with _ | r
        · have hxcs : x ∉ collectDescendants cs := (ihcs x).mp hc
          simp only [findMenu, if_neg hix, hc, collectDescendants, List.mem_cons,
            List.mem_append]
          rw [ihrest x]
          constructor
          · intro h hx
            rcases hx with hx | hx | hx
            · exact hix hx.symm
            · exact hxcs hx
            · exact h hx
          · intro h hx
            exact h (Or.inr (Or.inr hx))
        · have hxcs : x ∈ collectDescendants cs := by
            by_contra hxc
            rw [← ihcs x] at hxc
            rw [hc] at hxc
            cases hxc
          simp only [findMenu, if_neg hix, hc, collectDescendants, List.mem_cons,
            List.mem_append]
          constructor
          · intro h; cases h
          · intro h; exact absurd (Or.inr (Or.inl hxcs)) h
  | case3 j rest ih =>
      intro x
      simp only [findMenu, collectDescendants]
      exact ih x

theorem mem_collect_of_findMenu_some {f : List RNode} {x : String} {csx : List RNode}
    (h : findMenu x f = some csx) : x ∈ collectDescendants f := by
  by_contra hx
  rw [← findMenu_eq_none_iff] at hx
  rw [h] at hx
  cases hx

theorem collect_subset_of_findMenu :
    ∀ (f : List RNode) (p : String) (csp : List RNode), findMenu p f = some csp →
      ∀ y ∈ collectDescendants csp, y ∈ collectDescendants f := by
  intro f
  induction f using collectDescendants.induct with
  | case1 => intro p csp h; simp [findMenu] at h
  | case2 i cs rest ihcs ihrest =>
      intro p csp h y hy
      simp only [collectDescendants, List.mem_cons, List.mem_append]
      by_cases hip : i = p
      · rw [findMenu, if_pos hip] at h
        injection h with h
        subst h
        exact Or.inr (Or.inl hy)
      · rw [findMenu, if_neg hip] at h
        rcases hc : findMenu p cs with _ | r
        · rw [hc] at h
          exact Or.inr (Or.inr (ihrest p csp h y hy))
        · rw [hc] at h
          injection h with h
          subst h
          exact Or.inr (Or.inl (ihcs p r hc y hy))
  | case3 j rest ih =>
      intro p csp h y hy
      simp only [findMenu] at h
      simpa [collectDescendants] using ih p csp h y hy

theorem mem_of_hasTopMenu :
    ∀ (f : List RNode) (x : String), hasTopMenu x f = true → x ∈ collectDescendants f := by
  intro f
  induction f using collectDescendants.induct with
  | case1 => intro x h; simp [hasTopMenu] at h
  | case2 i cs rest ihcs ihrest =>
      intro x h
      simp only [hasTopMenu, Bool.or_eq_true, beq_iff_eq] at h
      simp only [collectDescendants, List.mem_cons, List.mem_append]
      rcases h with h | h
      · exact Or.inl h.symm
      · exact Or.inr (Or.inr (ihrest x h))
  | case3 j rest ih =>
      intro x h
      simp only [hasTopMenu] at h
      simpa [collectDescendants] using ih x h

theorem hasTopMenu_exists :
    ∀ (f : List RNode) (x : String), hasTopMenu x f = true →
      ∃ csx, RNode.menu x csx ∈ f := by
  intro f
  induction f using collectDescendants.induct with
  | case1 => intro x h; simp [hasTopMenu] at h
  | case2 i cs rest ihcs ihrest =>
      intro x h
      simp only [hasTopMenu, Bool.or_eq_true, beq_iff_eq] at h
      rcases h with h | h
      · subst h
        exact ⟨cs, List.mem_cons_self _ _⟩
      · obtain ⟨csx, hcsx⟩ := ihrest x h
        exact ⟨csx, List.mem_cons_of_mem _ hcsx⟩
  | case3 j rest ih =>
      intro x h
      simp only [hasTopMenu] at h
      obtain ⟨csx, hcsx⟩ := ih x h
      exact ⟨csx, List.mem_cons_of_mem _ hcsx⟩

theorem mem_collect_of_topNode :
    ∀ (f : List RNode) (x : String) (csx : List RNode), RNode.menu x csx ∈ f →
      x ∈ collectDescendants f := by
  intro f
  induction f using collectDescendants.induct with
  | case1 => intro x csx h; cases h
  | case2 i cs rest ihcs ihrest =>
      intro x csx h
      simp only [collectDescendants, List.mem_cons, List.mem_append]
      rcases List.mem_cons.mp h with h | h
      · injection h with h1 h2
        exact Or.inl h1
      · exact Or.inr (Or.inr (ihrest x csx h))
  | case3 j rest ih =>
      intro x csx h
      rcases List.mem_cons.mp h with h | h
      · cases h
      · simpa [collectDescendants] using ih x csx h

theorem forestSize_lt_of_topNode :
    ∀ (f : List RNode) (x : String) (csx : List RNode), RNode.menu x csx ∈ f →
      forestSize csx < forestSize f := by
  intro f
  induction f using collectDescendants.induct with
  | case1 => intro x csx h; cases h
  | case2 i cs rest ihcs ihrest =>
      intro x csx h
      simp only [forestSize]
      rcases List.mem_cons.mp h with h | h
      · injection h with h1 h2
        subst h2
        omega
      · have := ihrest x csx h
        omega
  | case3 j rest ih =>
      intro x csx h
      rcases List.mem_cons.mp h with h | h
      · cases h
      · simpa [forestSize] using ih x csx h

theorem forestSize_lt_of_findMenu :
    ∀ (f : List RNode) (x : String) (csx : List RNode), findMenu x f = some csx →
      forestSize csx < forestSize f := by
  intro f
  induction f using collectDescendants.induct with
  | case1 => intro x csx h; simp [findMenu] at h
  | case2 i cs rest ihcs ihrest =>
      intro x csx h
      simp only [forestSize]
      by_cases hix : i = x
      · rw [findMenu, if_pos hix] at h
        injection h with h
        subst h
        omega
      · rw [findMenu, if_neg hix] at h
        rcases hc : findMenu x cs with _ | r
        · rw [hc] at h
          have := ihrest x csx h
          omega
        · rw [hc] at h
          injection h with h
          subst h
          have := ihcs x r hc
          omega
  | case3 j rest ih =>
      intro x csx h
      simp only [findMenu] at h
      simpa [forestSize] using ih x csx h

end RolePermissions

namespace RolePermissions

theorem nodup_parts {i : String} {cs rest : List RNode}
    (h : (collectDescendants (RNode.menu i cs :: rest)).Nodup) :
    i ∉ collectDescendants cs ∧ i ∉ collectDescendants rest
    ∧ (collectDescendants cs).Nodup ∧ (collectDescendants rest).Nodup
    ∧ (∀ y, y ∈ collectDescendants cs → y ∉ collectDescendants rest) := by
  simp only [collectDescendants, List.nodup_cons, List.mem_append, List.nodup_append] at h
  refine ⟨fun hc => h.1 (Or.inl hc), fun hr => h.1 (Or.inr hr), h.2.1, h.2.2.1, ?_⟩
  intro y hy hyr
  exact h.2.2.2 hy hyr

theorem nodup_perm_tail {j : String} {rest : List RNode}
    (h : (collectDescendants (RNode.perm j :: rest)).Nodup) :
    (collectDescendants rest).Nodup := by
  simpa [collectDescendants] using h

theorem findMenu_eq_of_topNode :
    ∀ (f : List RNode), (collectDescendants f).Nodup →
      ∀ (x : String) (csx : List RNode), RNode.menu x csx ∈ f → findMenu x f = some csx := by
  intro f
  induction f using collectDescendants.induct with
  | case1 => intro _ x csx h; cases h
  | case2 i cs rest ihcs ihrest =>
      intro hn x csx h
      obtain ⟨hic, hir, hncs, hnrest, hdisj⟩ := nodup_parts hn
      rcases List.mem_cons.mp h with h | h
      · injection h with h1 h2
        subst h1
        subst h2
        rw [findMenu, if_pos rfl]
      · have hxr : x ∈ collectDescendants rest := mem_collect_of_topNode rest x csx h
        have hix : i ≠ x := fun hh => hir (hh ▸ hxr)
        have hxcs : x ∉ collectDescendants cs := fun hc => hdisj x hc hxr
        have hfcs : findMenu x cs = none := (findMenu_eq_none_iff cs x).mpr hxcs
        rw [findMenu, if_neg hix, hfcs]
        exact ihrest hnrest x csx h
  | case3 j rest ih =>
      intro hn x csx h
      rcases List.mem_cons.mp h with h | h
      · cases h
      · simp only [findMenu]
        exact ih (nodup_perm_tail hn) x csx h

theorem nodup_of_findMenu :
    ∀ (f : List RNode), (collectDescendants f).Nodup →
      ∀ (x : String) (csx : List RNode), findMenu x f = some csx →
        (collectDescendants csx).Nodup := by
  intro f
  induction f using collectDescendants.induct with
  | case1 => intro _ x csx h; simp [findMenu] at h
  | case2 i cs rest ihcs ihrest =>
      intro hn x csx h
      obtain ⟨hic, hir, hncs, hnrest, hdisj⟩ := nodup_parts hn
      by_cases hix : i = x
      · rw [findMenu, if_pos hix] at h
        injection h with h
        subst h
        exact hncs
      · rw [findMenu, if_neg hix] at h
        rcases hc : findMenu x cs with _ | r
        · rw [hc] at h
          exact ihrest hnrest x csx h
        · rw [hc] at h
          injection h with h
          subst h
          exact ihcs hncs x r hc
  | case3 j rest ih =>
      intro hn x csx h
      simp only [findMenu] at h
      exact ih (nodup_perm_tail hn) x csx h

theorem not_mem_children_of_findMenu :
    ∀ (f : List RNode), (collectDescendants f).Nodup →
      ∀ (a : String) (csa : List RNode), findMenu a f = some csa →
        a ∉ collectDescendants csa := by
  intro f
  induction f using collectDescendants.induct with
  | case1 => intro _ a csa h; simp [findMenu] at h
  | case2 i cs rest ihcs ihrest =>
      intro hn a csa h
      obtain ⟨hic, hir, hncs, hnrest, hdisj⟩ := nodup_parts hn
      by_cases hia : i = a
      · rw [findMenu, if_pos hia] at h
        injection h with h
        subst h
        subst hia
        exact hic
      · rw [findMenu, if_neg hia] at h
        rcases hc : findMenu a cs with _ | r
        · rw [hc] at h
          exact ihrest hnrest a csa h
        · rw [hc] at h
          injection h with h
          subst h
          exact ihcs hncs a r hc
  | case3 j rest ih =>
      intro hn a csa h
      simp only [findMenu] at h
      exact ih (nodup_perm_tail hn) a csa h

theorem findMenu_locality :
    ∀ (f : List RNode), (collectDescendants f).Nodup →
      ∀ (p : String) (csp : List RNode), findMenu p f = some csp →
        ∀ y ∈ collectDescendants csp, findMenu y f = findMenu y csp := by
  intro f
  induction f using collectDescendants.induct with
  | case1 => intro _ p csp h; simp [findMenu] at h
  | case2 i cs rest ihcs ihrest =>
      intro hn p csp h y hy
      obtain ⟨hic, hir, hncs, hnrest, hdisj⟩ := nodup_parts hn
      by_cases hip : i = p
      · rw [findMenu, if_pos hip] at h
        injection h with h
        subst h
        have hiy : i ≠ y := fun hh => hic (hh ▸ hy)
        rcases hyc : findMenu y cs with _ | r
        · exact absurd hy ((findMenu_eq_none_iff cs y).mp hyc)
        · rw [findMenu, if_neg hiy, hyc]
      · rw [findMenu, if_neg hip] at h
        rcases hc : findMenu p cs with _ | r
        · rw [hc] at h
          have hycsp : y ∈ collectDescendants rest :=
            collect_subset_of_findMenu rest p csp h y hy
          have hiy : i ≠ y := fun hh => hir (hh ▸ hycsp)
          have hycs : y ∉ collectDescendants cs := fun hc2 => hdisj y hc2 hycsp
          have hfyc : findMenu y cs = none := (findMenu_eq_none_iff cs y).mpr hycs
          rw [findMenu, if_neg hiy, hfyc]
          exact ihrest hnrest p csp h y hy
        · rw [hc] at h
          injection h with h
          subst h
          have hycs : y ∈ collectDescendants cs :=
            collect_subset_of_findMenu cs p r hc y hy
          have hiy : i ≠ y := fun hh => hic (hh ▸ hycs)
          rcases hyc : findMenu y cs with _ | r2
          · exact absurd hycs ((findMenu_eq_none_iff cs y).mp hyc)
          · have hrec := ihcs hncs p r hc y hy
            rw [hyc] at hrec
            rw [findMenu, if_neg hiy, hyc]
            exact hrec
  | case3 j rest ih =>
      intro hn p csp h y hy
      simp only [findMenu] at h ⊢
      exact ih (nodup_perm_tail hn) p csp h y hy

theorem hasTopMenu_eq_false_of_inside :
    ∀ (f : List RNode), (collectDescendants f).Nodup →
      ∀ (a : String) (csa : List RNode), findMenu a f = some csa →
        ∀ x ∈ collectDescendants csa, hasTopMenu x f = false := by
  intro f
  induction f using collectDescendants.induct with
  | case1 => intro _ a csa h; simp [findMenu] at h
  | case2 i cs rest ihcs ihrest =>
      intro hn a csa h x hx
      obtain ⟨hic, hir, hncs, hnrest, hdisj⟩ := nodup_parts hn
      by_cases hia : i = a
      · rw [findMenu, if_pos hia] at h
        injection h with h
        subst h
        have hix : i ≠ x := fun hh => hic (hh ▸ hx)
        have hxr : hasTopMenu x rest = false := by
          cases h2 : hasTopMenu x rest
          · rfl
          · exact absurd (mem_of_hasTopMenu rest x h2) (hdisj x hx)
        simp [hasTopMenu, hix, hxr]
      · rw [findMenu, if_neg hia] at h
        rcases hc : findMenu a cs with _ | r
        · rw [hc] at h
          have hxrest : x ∈ collectDescendants rest :=
            collect_subset_of_findMenu rest a csa h x hx
          have hix : i ≠ x := fun hh => hir (hh ▸ hxrest)
          have hxr := ihrest hnrest a csa h x hx
          simp [hasTopMenu, hix, hxr]
        · rw [hc] at h
          injection h with h
          subst h
          have hxcs : x ∈ collectDescendants cs :=
            collect_subset_of_findMenu cs a r hc x hx
          have hix : i ≠ x := fun hh => hic (hh ▸ hxcs)
          have hxr : hasTopMenu x rest = false := by
            cases h2 : hasTopMenu x rest
            · rfl
            · exact absurd (mem_of_hasTopMenu rest x h2) (hdisj x hxcs)
          simp [hasTopMenu, hix, hxr]
  | case3 j rest ih =>
      intro hn a csa h x hx
      simp only [findMenu] at h
      simp only [hasTopMenu]
      exact ih (nodup_perm_tail hn) a csa h x hx

theorem findAndCollect_eq_nil :
    ∀ (f : List RNode) (x : String), x ∉ collectDescendants f → findAndCollect x f = [] := by
  intro f
  induction f using collectDescendants.induct with
  | case1 => intro x _; simp [findAndCollect]
  | case2 i cs rest ihcs ihrest =>
      intro x hx
      simp only [collectDescendants, List.mem_cons, List.mem_append] at hx
      push_neg at hx
      obtain ⟨hx1, hx2, hx3⟩ := hx
      simp only [findAndCollect, if_neg (fun hh : i = x => hx1 hh.symm),
        ihcs x hx2, ihrest x hx3, List.append_nil]
  | case3 j rest ih =>
      intro x hx
      simp only [collectDescendants] at hx
      simp only [findAndCollect]
      exact ih x hx

theorem findAndCollect_eq :
    ∀ (f : List RNode), (collectDescendants f).Nodup →
      ∀ (x : String) (csx : List RNode), findMenu x f = some csx →
        findAndCollect x f = collectDescendants csx := by
  intro f
  induction f using collectDescendants.induct with
  | case1 => intro _ x csx h; simp [findMenu] at h
  | case2 i cs rest ihcs ihrest =>
      intro hn x csx h
      obtain ⟨hic, hir, hncs, hnrest, hdisj⟩ := nodup_parts hn
      by_cases hix : i = x
      · rw [findMenu, if_pos hix] at h
        injection h with h
        subst h
        subst hix
        have : findAndCollect i rest = [] := findAndCollect_eq_nil rest i hir
        simp [findAndCollect, this]
      · rw [findMenu, if_neg hix] at h
        rcases hc : findMenu x cs with _ | r
        · rw [hc] at h
          have hxcs : x ∉ collectDescendants cs := (findMenu_eq_none_iff cs x).mp hc
          simp only [findAndCollect, if_neg hix, findAndCollect_eq_nil cs x hxcs,
            List.nil_append]
          exact ihrest hnrest x csx h
        · rw [hc] at h
          injection h with h
          subst h
          have hxcs : x ∈ collectDescendants cs := mem_collect_of_findMenu_some hc
          have hxr : x ∉ collectDescendants rest := hdisj x hxcs
          simp only [findAndCollect, if_neg hix, findAndCollect_eq_nil rest x hxr,
            List.append_nil]
          exact ihcs hncs x r hc
  | case3 j rest ih =>
      intro hn x csx h
      simp only [findMenu] at h
      simp only [findAndCollect]
      exact ih (nodup_perm_tail hn) x csx h

end RolePermissions

namespace RolePermissions

theorem findParentOnce_eq_none_iff :
    ∀ (f : List RNode) (x : String) (p0 : Option String),
      findParentOnce x f p0 = none ↔ x ∉ collectDescendants f := by
  intro f
  induction f using collectDescendants.induct with
  | case1 => intro x p0; simp [findParentOnce, collectDescendants]
  | case2 i cs rest ihcs ihrest =>
      intro x p0
      by_cases hix : i = x
      · subst hix
        simp [findParentOnce, collectDescendants]
      · rcases hc : findParentOnce x cs (some i) with _ | r
        · have hxcs : x ∉ collectDescendants cs := (ihcs x (some i)).mp hc
          simp only [findParentOnce, if_neg hix, hc, collectDescendants, List.mem_cons,
            List.mem_append]
          rw [ihrest x p0]
          constructor
          · intro h hx
            rcases hx with hx | hx | hx
            · exact hix hx.symm
            · exact hxcs hx
            · exact h hx
          · intro h hx
            exact h (Or.inr (Or.inr hx))
        · have hxcs : x ∈ collectDescendants cs := by
            by_contra hxc
            rw [← ihcs x (some i)] at hxc
            rw [hc] at hxc
            cases hxc
          simp only [findParentOnce, if_neg hix, hc, collectDescendants, List.mem_cons,
            List.mem_append]
          constructor
          · intro h; cases h
          · intro h; exact absurd (Or.inr (Or.inl hxcs)) h
  | case3 j rest ih =>
      intro x p0
      simp only [findParentOnce, collectDescendants]
      exact ih x p0

theorem findParentOnce_top :
    ∀ (f : List RNode), (collectDescendants f).Nodup →
      ∀ (x : String) (p0 : Option String), hasTopMenu x f = true →
        findParentOnce x f p0 = some p0 := by
  intro f
  induction f using collectDescendants.induct with
  | case1 => intro _ x p0 h; simp [hasTopMenu] at h
  | case2 i cs rest ihcs ihrest =>
      intro hn x p0 h
      obtain ⟨hic, hir, hncs, hnrest, hdisj⟩ := nodup_parts hn
      simp only [hasTopMenu, Bool.or_eq_true, beq_iff_eq] at h
      by_cases hix : i = x
      · rw [findParentOnce, if_pos hix]
      · rcases h with h | h
        · exact absurd h hix
        · have hxr : x ∈ collectDescendants rest := mem_of_hasTopMenu rest x h
          have hxcs : x ∉ collectDescendants cs := fun hc => hdisj x hc hxr
          have hfc : findParentOnce x cs (some i) = none :=
            (findParentOnce_eq_none_iff cs x (some i)).mpr hxcs
          rw [findParentOnce, if_neg hix, hfc]
          exact ihrest hnrest x p0 h
  | case3 j rest ih =>
      intro hn x p0 h
      simp only [hasTopMenu] at h
      simp only [findParentOnce]
      exact ih (nodup_perm_tail hn) x p0 h

theorem findParentOnce_deep :
    ∀ (f : List RNode), (collectDescendants f).Nodup →
      ∀ (p : String) (csp : List RNode) (x : String),
        findMenu p f = some csp → hasTopMenu x csp = true →
          ∀ (p0 : Option String), findParentOnce x f p0 = some (some p) := by
  intro f
  induction f using collectDescendants.induct with
  | case1 => intro _ p csp x h _ _; simp [findMenu] at h
  | case2 i cs rest ihcs ihrest =>
      intro hn p csp x h htop p0
      obtain ⟨hic, hir, hncs, hnrest, hdisj⟩ := nodup_parts hn
      have hxcsp : x ∈ collectDescendants csp := mem_of_hasTopMenu csp x htop
      by_cases hip : i = p
      · rw [findMenu, if_pos hip] at h
        injection h with h
        subst h
        have hix : i ≠ x := fun hh => hic (hh ▸ hxcsp)
        have hfc : findParentOnce x cs (some i) = some (some i) :=
          findParentOnce_top cs hncs x (some i) htop
        rw [findParentOnce, if_neg hix, hfc, hip]
      · rw [findMenu, if_neg hip] at h
        rcases hc : findMenu p cs with _ | r
        · rw [hc] at h
          have hxrest : x ∈ collectDescendants rest :=
            collect_subset_of_findMenu rest p csp h x hxcsp
          have hix : i ≠ x := fun hh => hir (hh ▸ hxrest)
          have hxcs : x ∉ collectDescendants cs := fun hcc => hdisj x hcc hxrest
          have hfc : findParentOnce x cs (some i) = none :=
            (findParentOnce_eq_none_iff cs x (some i)).mpr hxcs
          rw [findParentOnce, if_neg hix, hfc]
          exact ihrest hnrest p csp x h htop p0
        · rw [hc] at h
          injection h with h
          subst h
          have hxcs : x ∈ collectDescendants cs :=
            collect_subset_of_findMenu cs p r hc x hxcsp
          have hix : i ≠ x := fun hh => hic (hh ▸ hxcs)
          have hfc : findParentOnce x cs (some i) = some (some p) :=
            ihcs hncs p r x hc htop (some i)
          rw [findParentOnce, if_neg hix, hfc]
  | case3 j rest ih =>
      intro hn p csp x h htop p0
      simp only [findMenu] at h
      simp only [findParentOnce]
      exact ih (nodup_perm_tail hn) p csp x h htop p0

theorem top_or_parent :
    ∀ (f : List RNode), (collectDescendants f).Nodup →
      ∀ (x : String), x ∈ collectDescendants f →
        hasTopMenu x f = true
        ∨ ∃ (p : String) (csp : List RNode), findMenu p f = some csp
            ∧ hasTopMenu x csp = true := by
  intro f
  induction f using collectDescendants.induct with
  | case1 => intro _ x h; simp [collectDescendants] at h
  | case2 i cs rest ihcs ihrest =>
      intro hn x hx
      obtain ⟨hic, hir, hncs, hnrest, hdisj⟩ := nodup_parts hn
      simp only [collectDescendants, List.mem_cons, List.mem_append] at hx
      rcases hx with hx | hx | hx
      · subst hx
        left
        simp [hasTopMenu]
      · rcases ihcs hncs x hx with ht | ⟨p, csp, hp, htp⟩
        · right
          refine ⟨i, cs, ?_, ht⟩
          rw [findMenu, if_pos rfl]
        · right
          have hpcs : p ∈ collectDescendants cs := mem_collect_of_findMenu_some hp
          have hip : i ≠ p := fun hh => hic (hh ▸ hpcs)
          refine ⟨p, csp, ?_, htp⟩
          rw [findMenu, if_neg hip, hp]
      · rcases ihrest hnrest x hx with ht | ⟨p, csp, hp, htp⟩
        · left
          have hix : i ≠ x := fun hh => hir (hh ▸ hx)
          simp [hasTopMenu, hix, ht]
        · right
          have hprest : p ∈ collectDescendants rest := mem_collect_of_findMenu_some hp
          have hip : i ≠ p := fun hh => hir (hh ▸ hprest)
          have hpcs : p ∉ collectDescendants cs := fun hcc => hdisj p hcc hprest
          have hfc : findMenu p cs = none := (findMenu_eq_none_iff cs p).mpr hpcs
          refine ⟨p, csp, ?_, htp⟩
          rw [findMenu, if_neg hip, hfc, hp]
  | case3 j rest ih =>
      intro hn x hx
      simp only [collectDescendants] at hx
      rcases ih (nodup_perm_tail hn) x hx with ht | ⟨p, csp, hp, htp⟩
      · left
        simpa [hasTopMenu] using ht
      · right
        exact ⟨p, csp, by simpa [findMenu] using hp, htp⟩

theorem parent_node_unique {f : List RNode} (hn : (collectDescendants f).Nodup)
    {x p1 p2 : String} {cs1 cs2 : List RNode}
    (h1 : findMenu p1 f = some cs1) (ht1 : hasTopMenu x cs1 = true)
    (h2 : findMenu p2 f = some cs2) (ht2 : hasTopMenu x cs2 = true) : p1 = p2 := by
  have e1 := findParentOnce_deep f hn p1 cs1 x h1 ht1 none
  have e2 := findParentOnce_deep f hn p2 cs2 x h2 ht2 none
  rw [e1] at e2
  injection e2 with e2
  injection e2

theorem parentOf_eq_some_iff (f : List RNode) (hn : (collectDescendants f).Nodup)
    (x p : String) :
    parentOf f x = some p ↔
      (∃ csp, findMenu p f = some csp ∧ hasTopMenu x csp = true) ∧ p ≠ "" := by
  constructor
  · intro h
    unfold parentOf at h
    rcases hf : findParentOnce x f none with _ | r
    · rw [hf] at h
      cases h
    · rw [hf] at h
      rcases r with _ | q
      · cases h
      · have h2 : (if q != "" then some q else none) = some p := h
        by_cases hq0 : q = ""
        · rw [if_neg (by simp [hq0])] at h2
          cases h2
        · rw [if_pos (by simp [hq0])] at h2
          have hq : q = p := by injection h2
          subst hq
          refine ⟨?_, hq0⟩
          have hx : x ∈ collectDescendants f := by
            by_contra hxc
            rw [← findParentOnce_eq_none_iff f x none] at hxc
            rw [hf] at hxc
            cases hxc
          rcases top_or_parent f hn x hx with ht | ⟨p2, csp2, hp2, htp2⟩
          · have := findParentOnce_top f hn x none ht
            rw [hf] at this
            cases this
          · have := findParentOnce_deep f hn p2 csp2 x hp2 htp2 none
            rw [hf] at this
            injection this with this
            injection this with this
            subst this
            exact ⟨csp2, hp2, htp2⟩
  · rintro ⟨⟨csp, hfind, htop⟩, hpne⟩
    unfold parentOf
    rw [findParentOnce_deep f hn p csp x hfind htop none]
    simp [hpne]

theorem isAncestor_of_parentOf {f : List RNode} (hn : (collectDescendants f).Nodup)
    {x p : String} (h : parentOf f x = some p) : IsAncestor f p x := by
  rcases (parentOf_eq_some_iff f hn x p).mp h with ⟨⟨csp, hfind, htop⟩, _⟩
  exact ⟨csp, hfind, mem_of_hasTopMenu csp x htop⟩

theorem isAncestor_trans {f : List RNode} (hn : (collectDescendants f).Nodup)
    {a b c : String} (hab : IsAncestor f a b) (hbc : IsAncestor f b c) :
    IsAncestor f a c := by
  obtain ⟨csa, hfa, hb⟩ := hab
  obtain ⟨csb, hfb, hc⟩ := hbc
  refine ⟨csa, hfa, ?_⟩
  have hloc : findMenu b f = findMenu b csa := findMenu_locality f hn a csa hfa b hb
  rw [hloc] at hfb
  exact collect_subset_of_findMenu csa b csb hfb c hc

theorem isAncestor_irrefl {f : List RNode} (hn : (collectDescendants f).Nodup)
    {a : String} : ¬IsAncestor f a a := by
  rintro ⟨csa, hfa, ha⟩
  exact not_mem_children_of_findMenu f hn a csa hfa ha

theorem isAncestor_asymm {f : List RNode} (hn : (collectDescendants f).Nodup)
    {a b : String} (hab : IsAncestor f a b) (hba : IsAncestor f b a) : False :=
  isAncestor_irrefl hn (isAncestor_trans hn hab hba)

end RolePermissions

namespace RolePermissions

theorem mem_getDescendantMenuIds_iff (f : List RNode) (hn : (collectDescendants f).Nodup)
    (x y : String) :
    y ∈ getDescendantMenuIds f x ↔ IsAncestor f x y := by
  unfold getDescendantMenuIds IsAncestor
  rcases hf : findMenu x f with _ | csx
  · have hx : x ∉ collectDescendants f := (findMenu_eq_none_iff f x).mp hf
    rw [findAndCollect_eq_nil f x hx]
    simp
  · rw [findAndCollect_eq f hn x csx hf]
    constructor
    · intro hy
      exact ⟨csx, rfl, hy⟩
    · rintro ⟨cs2, hcs2, hy⟩
      injection hcs2 with hcs2
      subst hcs2
      exact hy

theorem measure_lt_of_parentOf {f : List RNode} (hn : (collectDescendants f).Nodup)
    {x p : String} (h : parentOf f x = some p) :
    forestSize ((findMenu x f).getD []) < forestSize ((findMenu p f).getD []) := by
  rcases (parentOf_eq_some_iff f hn x p).mp h with ⟨⟨csp, hfp, htop⟩, _⟩
  obtain ⟨csx, hmem⟩ := hasTopMenu_exists csp x htop
  have hncsp : (collectDescendants csp).Nodup := nodup_of_findMenu f hn p csp hfp
  have hx_in_csp : findMenu x csp = some csx := findMenu_eq_of_topNode csp hncsp x csx hmem
  have hloc : findMenu x f = findMenu x csp :=
    findMenu_locality f hn p csp hfp x (mem_of_hasTopMenu csp x htop)
  rw [hloc, hx_in_csp, hfp]
  simpa using forestSize_lt_of_topNode csp x csx hmem

theorem measure_lt_total {f : List RNode} {x : String}
    (hx : x ∈ collectDescendants f) :
    forestSize ((findMenu x f).getD []) < forestSize f := by
  rcases hf : findMenu x f with _ | csx
  · exact absurd hx ((findMenu_eq_none_iff f x).mp hf)
  · simpa using forestSize_lt_of_findMenu f x csx hf

theorem mem_ancestorChain_isAncestor {f : List RNode} (hn : (collectDescendants f).Nodup) :
    ∀ (fuel : Nat) (x a : String), a ∈ ancestorChain f fuel x → IsAncestor f a x := by
  intro fuel
  induction fuel with
  | zero => intro x a ha; simp [ancestorChain] at ha
  | succ n ih =>
      intro x a ha
      rcases hp : parentOf f x with _ | p
      · simp [ancestorChain, hp] at ha
      · simp only [ancestorChain, hp] at ha
        rcases List.mem_cons.mp ha with rfl | ha2
        · exact isAncestor_of_parentOf hn hp
        · exact isAncestor_trans hn (ih p a ha2) (isAncestor_of_parentOf hn hp)

theorem ancestorChain_succ (f : List RNode) (fuel : Nat) (x : String) :
    ancestorChain f (fuel + 1) x =
      match parentOf f x with
      | some p => p :: ancestorChain f fuel p
      | none => [] := by
  simp only [ancestorChain]

theorem ancestorChain_succ_of_parent {f : List RNode} {fuel : Nat} {x p : String}
    (hp : parentOf f x = some p) :
    ancestorChain f (fuel + 1) x = p :: ancestorChain f fuel p := by
  rw [ancestorChain_succ, hp]

theorem mem_getAncestorMenuIds_isAncestor (f : List RNode)
    (hn : (collectDescendants f).Nodup) {x a : String}
    (h : a ∈ getAncestorMenuIds f x) : IsAncestor f a x :=
  mem_ancestorChain_isAncestor hn (forestSize f) x a h

theorem mem_collect_of_parentOf {f : List RNode} (hn : (collectDescendants f).Nodup)
    {x p : String} (h : parentOf f x = some p) : x ∈ collectDescendants f := by
  rcases (parentOf_eq_some_iff f hn x p).mp h with ⟨⟨csp, hfp, htop⟩, _⟩
  exact collect_subset_of_findMenu f p csp hfp x (mem_of_hasTopMenu csp x htop)

theorem parentOf_isSome_of_mem {f : List RNode} {x m : String}
    (h : x ∈ getAncestorMenuIds f m) : ∃ p, parentOf f m = some p := by
  unfold getAncestorMenuIds at h
  rcases hN : forestSize f with _ | k
  · rw [hN] at h
    simp [ancestorChain] at h
  · rw [hN] at h
    rcases hp : parentOf f m with _ | p
    · simp [ancestorChain, hp] at h
    · exact ⟨p, rfl⟩

theorem ancestorChain_stable {f : List RNode} (hn : (collectDescendants f).Nodup) :
    ∀ (fuel : Nat) (x : String),
      forestSize f ≤ fuel + forestSize ((findMenu x f).getD []) →
      ancestorChain f (fuel + 1) x = ancestorChain f fuel x := by
  intro fuel
  induction fuel with
  | zero =>
      intro x hb
      rcases hp : parentOf f x with _ | p
      · simp [ancestorChain, hp]
      · exfalso
        have hx := mem_collect_of_parentOf hn hp
        have := measure_lt_total hx
        omega
  | succ k ih =>
      intro x hb
      rcases hp : parentOf f x with _ | p
      · rw [ancestorChain_succ, hp, ancestorChain_succ, hp]
      · have hmp := measure_lt_of_parentOf hn hp
        rw [show ancestorChain f (k + 1 + 1) x = p :: ancestorChain f (k + 1) p from
            ancestorChain_succ_of_parent hp,
          show ancestorChain f (k + 1) x = p :: ancestorChain f k p from
            ancestorChain_succ_of_parent hp,
          ih p (by omega)]

theorem getAncestorMenuIds_step {f : List RNode} (hn : (collectDescendants f).Nodup)
    {m p : String} (hp : parentOf f m = some p) :
    getAncestorMenuIds f m = p :: getAncestorMenuIds f p := by
  have hm := mem_collect_of_parentOf hn hp
  have hszm := measure_lt_total hm
  have hmp := measure_lt_of_parentOf hn hp
  unfold getAncestorMenuIds
  obtain ⟨k, hk⟩ : ∃ k, forestSize f = k + 1 := ⟨forestSize f - 1, by omega⟩
  rw [hk]
  rw [show ancestorChain f (k + 1) m = p :: ancestorChain f k p from
    ancestorChain_succ_of_parent hp]
  rw [ancestorChain_stable hn k p (by omega)]

theorem isAncestor_parent_step {f : List RNode} (hn : (collectDescendants f).Nodup)
    {x p a : String} (hp : parentOf f x = some p) (hax : IsAncestor f a x)
    (hpa : p ≠ a) : IsAncestor f a p := by
  rcases (parentOf_eq_some_iff f hn x p).mp hp with ⟨⟨csp, hfp, htp⟩, _⟩
  obtain ⟨csa, hfa, hxin⟩ := hax
  have hncsa : (collectDescendants csa).Nodup := nodup_of_findMenu f hn a csa hfa
  rcases top_or_parent csa hncsa x hxin with ht | ⟨p2, csp2, hp2, htp2⟩
  · exact absurd (parent_node_unique hn hfp htp hfa ht) hpa
  · have hp2mem : p2 ∈ collectDescendants csa := mem_collect_of_findMenu_some hp2
    have hp2f : findMenu p2 f = some csp2 := by
      rw [findMenu_locality f hn a csa hfa p2 hp2mem]
      exact hp2
    have hpp2 : p = p2 := parent_node_unique hn hfp htp hp2f htp2
    subst hpp2
    exact ⟨csa, hfa, hp2mem⟩

theorem ancestorChain_pairwise {f : List RNode} (hn : (collectDescendants f).Nodup) :
    ∀ (fuel : Nat) (x : String),
      (ancestorChain f fuel x).Pairwise (fun u v => IsAncestor f v u) := by
  intro fuel
  induction fuel with
  | zero => intro x; simp [ancestorChain]
  | succ n ih =>
      intro x
      rcases hp : parentOf f x with _ | p
      · simp [ancestorChain, hp]
      · simp only [ancestorChain, hp]
        refine List.Pairwise.cons ?_ (ih p)
        intro b hb
        exact mem_ancestorChain_isAncestor hn n p b hb

theorem getAncestorMenuIds_pairwise (f : List RNode) (hn : (collectDescendants f).Nodup)
    (x : String) :
    (getAncestorMenuIds f x).Pairwise (fun u v => IsAncestor f v u) :=
  ancestorChain_pairwise hn (forestSize f) x

theorem getAncestors_suffix {f : List RNode} (hn : (collectDescendants f).Nodup) :
    ∀ (n : Nat) (m : String),
      forestSize f ≤ n + forestSize ((findMenu m f).getD []) →
      ∀ x ∈ getAncestorMenuIds f m, ∀ b ∈ getAncestorMenuIds f x,
        b ∈ getAncestorMenuIds f m := by
  intro n
  induction n with
  | zero =>
      intro m hb x hx b _
      exfalso
      obtain ⟨p, hp⟩ := parentOf_isSome_of_mem hx
      have := measure_lt_total (mem_collect_of_parentOf hn hp)
      omega
  | succ k ih =>
      intro m hbound x hx b hb
      obtain ⟨p, hp⟩ := parentOf_isSome_of_mem hx
      have hmp := measure_lt_of_parentOf hn hp
      rw [getAncestorMenuIds_step hn hp] at hx ⊢
      rcases List.mem_cons.mp hx with rfl | hx2
      · exact List.mem_cons_of_mem x hb
      · exact List.mem_cons_of_mem p (ih p (by omega) x hx2 b hb)

theorem getAncestors_subset_of_mem {f : List RNode} (hn : (collectDescendants f).Nodup)
    {m x : String} (hx : x ∈ getAncestorMenuIds f m) :
    ∀ b ∈ getAncestorMenuIds f x, b ∈ getAncestorMenuIds f m :=
  getAncestors_suffix hn (forestSize f) m (Nat.le_add_right _ _) x hx

theorem getAncestors_between {f : List RNode} (hn : (collectDescendants f).Nodup) :
    ∀ (n : Nat) (x m : String),
      forestSize f ≤ n + forestSize ((findMenu x f).getD []) →
      IsAncestor f m x →
      ∀ b ∈ getAncestorMenuIds f x,
        b = m ∨ IsAncestor f m b ∨ b ∈ getAncestorMenuIds f m := by
  intro n
  induction n with
  | zero =>
      intro x m hb _ b hbm
      exfalso
      obtain ⟨p, hp⟩ := parentOf_isSome_of_mem hbm
      have := measure_lt_total (mem_collect_of_parentOf hn hp)
      omega
  | succ k ih =>
      intro x m hbound hmx b hb
      obtain ⟨p, hp⟩ := parentOf_isSome_of_mem hb
      have hkp := measure_lt_of_parentOf hn hp
      rw [getAncestorMenuIds_step hn hp] at hb
      by_cases hpm : p = m
      · subst hpm
        rcases List.mem_cons.mp hb with rfl | hb2
        · exact Or.inl rfl
        · exact Or.inr (Or.inr hb2)
      · have hmp2 : IsAncestor f m p := isAncestor_parent_step hn hp hmx hpm
        rcases List.mem_cons.mp hb with rfl | hb2
        · exact Or.inr (Or.inl hmp2)
        · exact ih p m (by omega) hmp2 b hb2

end RolePermissions

namespace RolePermissions

theorem mem_foldl_insert (l : List String) (s0 : Finset String) (x : String) :
    x ∈ l.foldl (fun s id => insert id s) s0 ↔ x ∈ l ∨ x ∈ s0 := by
  induction l generalizing s0 with
  | nil => simp
  | cons a t ih =>
      simp only [List.foldl_cons, ih, Finset.mem_insert, List.mem_cons]
      tauto

theorem mem_foldl_erase (l : List String) (s0 : Finset String) (x : String) :
    x ∈ l.foldl (fun s id => s.erase id) s0 ↔ x ∈ s0 ∧ x ∉ l := by
  induction l generalizing s0 with
  | nil => simp
  | cons a t ih =>
      simp only [List.foldl_cons, ih, Finset.mem_erase, List.mem_cons]
      tauto

theorem mem_ancestorFold_subset (td : List RNode) :
    ∀ (L : List String) (S0 : Finset String) (x : String),
      x ∈ L.foldl (deselectAncestorStep td) S0 → x ∈ S0 := by
  intro L
  induction L with
  | nil => intro S0 x h; simpa using h
  | cons a t ih =>
      intro S0 x h
      rw [List.foldl_cons] at h
      have hx := ih _ x h
      unfold deselectAncestorStep at hx
      rcases hck : (!hasSelectedDescendants td S0 a) with _ | _
      · rw [hck] at hx
        simpa using hx
      · rw [hck] at hx
        simp only [if_true] at hx
        exact Finset.mem_of_mem_erase hx

theorem ancestorFold_spec (td : List RNode) (hn : (collectDescendants td).Nodup) :
    ∀ (L : List String) (S0 : Finset String),
      L.Pairwise (fun u v => IsAncestor td v u) →
      (∀ a ∈ L, a ∈ S0) →
      (∀ x, x ∉ L →
        (x ∈ L.foldl (deselectAncestorStep td) S0 ↔ x ∈ S0))
      ∧ (∀ a ∈ L,
        (a ∈ L.foldl (deselectAncestorStep td) S0 ↔
          ∃ y ∈ getDescendantMenuIds td a, y ∈ L.foldl (deselectAncestorStep td) S0)) := by
  intro L
  induction L with
  | nil =>
      intro S0 _ _
      refine ⟨fun x _ => by simp, fun a ha => absurd ha (List.not_mem_nil a)⟩
  | cons a t ih =>
      intro S0 hpair hsub
      obtain ⟨hRa, hpt⟩ := List.pairwise_cons.mp hpair
      have hat : a ∉ t := fun hmem => isAncestor_irrefl hn (hRa a hmem)
      have haS0 : a ∈ S0 := hsub a (List.mem_cons_self a t)
      have htS1 : ∀ b ∈ t, b ∈ deselectAncestorStep td S0 a := by
        intro b hb
        have hbS0 : b ∈ S0 := hsub b (List.mem_cons_of_mem a hb)
        have hba : b ≠ a := by
          rintro rfl
          exact hat hb
        unfold deselectAncestorStep
        split
        · exact Finset.mem_erase.mpr ⟨hba, hbS0⟩
        · exact hbS0
      obtain ⟨P1, P2⟩ := ih (deselectAncestorStep td S0 a) hpt htS1
      have hstep_other : ∀ x, x ≠ a → (x ∈ deselectAncestorStep td S0 a ↔ x ∈ S0) := by
        intro x hxa
        unfold deselectAncestorStep
        split
        · simp [Finset.mem_erase, hxa]
        · exact Iff.rfl
      have hstep_a : a ∈ deselectAncestorStep td S0 a ↔
          hasSelectedDescendants td S0 a = true := by
        unfold deselectAncestorStep
        cases hck : hasSelectedDescendants td S0 a
        · simp [hck]
        · simp [hck, haS0]
      constructor
      · intro x hx
        have hxa : x ≠ a := fun hh => hx (hh ▸ List.mem_cons_self a t)
        have hxt : x ∉ t := fun hh => hx (List.mem_cons_of_mem a hh)
        rw [List.foldl_cons, P1 x hxt, hstep_other x hxa]
      · intro b hb
        rcases List.mem_cons.mp hb with rfl | hbt
        · have hyiff : ∀ y ∈ getDescendantMenuIds td b,
              (y ∈ t.foldl (deselectAncestorStep td) (deselectAncestorStep td S0 b) ↔
                y ∈ S0) := by
            intro y hy
            have hya : y ≠ b := by
              rintro rfl
              exact isAncestor_irrefl hn ((mem_getDescendantMenuIds_iff td hn y y).mp hy)
            have hyt : y ∉ t := by
              intro hyt
              exact isAncestor_asymm hn (hRa y hyt)
                ((mem_getDescendantMenuIds_iff td hn b y).mp hy)
            exact (P1 y hyt).trans (hstep_other y hya)
          rw [List.foldl_cons, P1 b hat, hstep_a]
          unfold hasSelectedDescendants
          rw [List.any_eq_true]
          constructor
          · rintro ⟨y, hy, hymem⟩
            exact ⟨y, hy, (hyiff y hy).mpr (by simpa using hymem)⟩
          · rintro ⟨y, hy, hymem⟩
            exact ⟨y, hy, by simpa using (hyiff y hy).mp hymem⟩
        · rw [List.foldl_cons]
          exact P2 b hbt

end RolePermissions

namespace RolePermissions

/--
**C1.** Cascading checkbox selection for the role-permission tree: on a
well-formed tree (every menu id occurs exactly once) and a selection closed
under ancestors, `toggleMenu m` preserves the closure; when `m` was
unselected, afterwards `m`, all of `m`'s descendant menus and all of `m`'s
ancestor menus are selected; when `m` was selected, afterwards `m` and all of
its descendants are removed, and each ancestor of `m` remains selected if and
only if it still has at least one selected descendant menu.
-/
theorem toggleMenu_spec (treeData : List RNode) (selectedMenuIds : Finset String)
    (m : String) (hn : (collectDescendants treeData).Nodup)
    (hclosed : ClosedUnderAncestors treeData selectedMenuIds) :
    ClosedUnderAncestors treeData (toggleMenu treeData selectedMenuIds m)
    ∧ (m ∉ selectedMenuIds →
        m ∈ toggleMenu treeData selectedMenuIds m
        ∧ (∀ d ∈ getDescendantMenuIds treeData m,
            d ∈ toggleMenu treeData selectedMenuIds m)
        ∧ (∀ a ∈ getAncestorMenuIds treeData m,
            a ∈ toggleMenu treeData selectedMenuIds m))
    ∧ (m ∈ selectedMenuIds →
        m ∉ toggleMenu treeData selectedMenuIds m
        ∧ (∀ d ∈ getDescendantMenuIds treeData m,
            d ∉ toggleMenu treeData selectedMenuIds m)
        ∧ (∀ a ∈ getAncestorMenuIds treeData m,
            (a ∈ toggleMenu treeData selectedMenuIds m ↔
              ∃ y ∈ getDescendantMenuIds treeData a,
                y ∈ toggleMenu treeData selectedMenuIds m))) := by
  by_cases hm : m ∈ selectedMenuIds
  · -- deselect branch
    have htm : toggleMenu treeData selectedMenuIds m =
        (getAncestorMenuIds treeData m).foldl (deselectAncestorStep treeData)
          ((getDescendantMenuIds treeData m).foldl (fun s id => s.erase id)
            (selectedMenuIds.erase m)) := by
      simp [toggleMenu, hm]
    have hS2 : ∀ x, x ∈ (getDescendantMenuIds treeData m).foldl (fun s id => s.erase id)
        (selectedMenuIds.erase m) ↔
        (x ∈ selectedMenuIds ∧ x ≠ m ∧ x ∉ getDescendantMenuIds treeData m) := by
      intro x
      rw [mem_foldl_erase, Finset.mem_erase]
      tauto
    have hsub : ∀ a ∈ getAncestorMenuIds treeData m,
        a ∈ (getDescendantMenuIds treeData m).foldl (fun s id => s.erase id)
          (selectedMenuIds.erase m) := by
      intro a ha
      have haa : IsAncestor treeData a m := mem_getAncestorMenuIds_isAncestor treeData hn ha
      rw [hS2]
      refine ⟨hclosed m hm a ha, ?_, ?_⟩
      · rintro rfl
        exact isAncestor_irrefl hn haa
      · intro hd
        exact isAncestor_asymm hn haa ((mem_getDescendantMenuIds_iff treeData hn m a).mp hd)
    obtain ⟨P1, P2⟩ := ancestorFold_spec treeData hn (getAncestorMenuIds treeData m)
      ((getDescendantMenuIds treeData m).foldl (fun s id => s.erase id)
        (selectedMenuIds.erase m))
      (getAncestorMenuIds_pairwise treeData hn m) hsub
    refine ⟨?_, fun hm2 => absurd hm hm2, fun _ => ⟨?_, ?_, ?_⟩⟩
    · -- closure is preserved
      intro x hx b hb
      have hbx : IsAncestor treeData b x := mem_getAncestorMenuIds_isAncestor treeData hn hb
      rw [htm] at hx
      have hxS2 := mem_ancestorFold_subset treeData _ _ x hx
      rw [hS2] at hxS2
      obtain ⟨hxS, hxm, hxD⟩ := hxS2
      rw [htm]
      by_cases hbA : b ∈ getAncestorMenuIds treeData m
      · rw [P2 b hbA]
        exact ⟨x, (mem_getDescendantMenuIds_iff treeData hn b x).mpr hbx, hx⟩
      · by_cases hbm : b = m
        · subst hbm
          exact absurd ((mem_getDescendantMenuIds_iff treeData hn b x).mpr hbx) hxD
        · by_cases hbD : b ∈ getDescendantMenuIds treeData m
          · exfalso
            have hmb : IsAncestor treeData m b :=
              (mem_getDescendantMenuIds_iff treeData hn m b).mp hbD
            exact hxD ((mem_getDescendantMenuIds_iff treeData hn m x).mpr
              (isAncestor_trans hn hmb hbx))
          · rw [P1 b hbA, hS2]
            exact ⟨hclosed x hxS b hb, hbm, hbD⟩
    · -- m is removed
      have hmA : m ∉ getAncestorMenuIds treeData m := by
        intro ha
        exact isAncestor_irrefl hn (mem_getAncestorMenuIds_isAncestor treeData hn ha)
      rw [htm, P1 m hmA, hS2]
      simp
    · -- descendants are removed
      intro d hd
      have hdA : d ∉ getAncestorMenuIds treeData m := by
        intro ha
        exact isAncestor_asymm hn (mem_getAncestorMenuIds_isAncestor treeData hn ha)
          ((mem_getDescendantMenuIds_iff treeData hn m d).mp hd)
      rw [htm, P1 d hdA, hS2]
      simp [hd]
    · -- ancestors stay selected exactly when a selected descendant remains
      intro a ha
      rw [htm]
      exact P2 a ha
  · -- select branch
    have htm : toggleMenu treeData selectedMenuIds m =
        (getAncestorMenuIds treeData m).foldl (fun s id => insert id s)
          ((getDescendantMenuIds treeData m).foldl (fun s id => insert id s)
            (insert m selectedMenuIds)) := by
      simp [toggleMenu, hm]
    have hmem : ∀ x, x ∈ toggleMenu treeData selectedMenuIds m ↔
        (x ∈ getAncestorMenuIds treeData m ∨ x ∈ getDescendantMenuIds treeData m
          ∨ x = m ∨ x ∈ selectedMenuIds) := by
      intro x
      rw [htm, mem_foldl_insert, mem_foldl_insert, Finset.mem_insert]
    refine ⟨?_, fun _ => ⟨?_, ?_, ?_⟩, fun hm2 => absurd hm2 hm⟩
    · -- closure is preserved
      intro x hx b hb
      rw [hmem x] at hx
      rw [hmem b]
      rcases hx with hx | hx | rfl | hx
      · exact Or.inl (getAncestors_subset_of_mem hn hx b hb)
      · have hmx : IsAncestor treeData m x :=
          (mem_getDescendantMenuIds_iff treeData hn m x).mp hx
        rcases getAncestors_between hn (forestSize treeData) x m (Nat.le_add_right _ _)
            hmx b hb with rfl | h | h
        · exact Or.inr (Or.inr (Or.inl rfl))
        · exact Or.inr (Or.inl ((mem_getDescendantMenuIds_iff treeData hn m b).mpr h))
        · exact Or.inl h
      · exact Or.inl hb
      · exact Or.inr (Or.inr (Or.inr (hclosed x hx b hb)))
    · rw [hmem m]
      tauto
    · intro d hd
      rw [hmem d]
      tauto
    · intro a ha
      rw [hmem a]
      tauto

end RolePermissions

namespace RolePermissions

/--
Witness for C1 at the concrete two-level tree `a → b`, the empty selection
and the toggle of `"b"` (a select: afterwards both `"b"` and its ancestor
`"a"` are selected).
-/
theorem toggleMenu_spec_witness :
    ((collectDescendants [RNode.menu "a" [RNode.menu "b" []]]).Nodup
      ∧ ClosedUnderAncestors [RNode.menu "a" [RNode.menu "b" []]] (∅ : Finset String))
    ∧ (ClosedUnderAncestors [RNode.menu "a" [RNode.menu "b" []]]
          (toggleMenu [RNode.menu "a" [RNode.menu "b" []]] ∅ "b")
        ∧ ("b" ∉ (∅ : Finset String) →
            "b" ∈ toggleMenu [RNode.menu "a" [RNode.menu "b" []]] ∅ "b"
            ∧ (∀ d ∈ getDescendantMenuIds [RNode.menu "a" [RNode.menu "b" []]] "b",
                d ∈ toggleMenu [RNode.menu "a" [RNode.menu "b" []]] ∅ "b")
            ∧ (∀ a ∈ getAncestorMenuIds [RNode.menu "a" [RNode.menu "b" []]] "b",
                a ∈ toggleMenu [RNode.menu "a" [RNode.menu "b" []]] ∅ "b"))
        ∧ ("b" ∈ (∅ : Finset String) →
            "b" ∉ toggleMenu [RNode.menu "a" [RNode.menu "b" []]] ∅ "b"
            ∧ (∀ d ∈ getDescendantMenuIds [RNode.menu "a" [RNode.menu "b" []]] "b",
                d ∉ toggleMenu [RNode.menu "a" [RNode.menu "b" []]] ∅ "b")
            ∧ (∀ a ∈ getAncestorMenuIds [RNode.menu "a" [RNode.menu "b" []]] "b",
                (a ∈ toggleMenu [RNode.menu "a" [RNode.menu "b" []]] ∅ "b" ↔
                  ∃ y ∈ getDescendantMenuIds [RNode.menu "a" [RNode.menu "b" []]] a,
                    y ∈ toggleMenu [RNode.menu "a" [RNode.menu "b" []]] ∅ "b")))) := by
  have hn : (collectDescendants [RNode.menu "a" [RNode.menu "b" []]]).Nodup := by
    have h1 : collectDescendants [RNode.menu "a" [RNode.menu "b" []]] = ["a", "b"] := by
      simp [collectDescendants]
    rw [h1]
    decide
  have hcl : ClosedUnderAncestors [RNode.menu "a" [RNode.menu "b" []]]
      (∅ : Finset String) := by
    intro x hx a ha
    exact absurd hx (Finset.not_mem_empty x)
  exact ⟨⟨hn, hcl⟩, toggleMenu_spec [RNode.menu "a" [RNode.menu "b" []]] ∅ "b" hn hcl⟩

end RolePermissions
